import Mathlib

/-!
Verification of `argupdate` (src/argupdate/argupdate.py).

Shallow embedding of `update_parameter_value` and the `ValueUpdater`
machinery, followed by theorems settling the specification claims.

Modelling choices:
* Python runtime values that the claims exercise are modelled by `Value`
  (integers and strings suffice for every claim).
* A callable is represented by its introspected signature: the ordered
  list of parameters, each a name together with an optional default
  (`inspect.signature(func).parameters`).
* The `updated_values` mapping and `orig_kwargs` are insertion-ordered
  association lists, matching CPython dict semantics (unique keys,
  insertion order preserved, `pop` removes the entry).
* `orig_args` / `orig_kwargs` are `Option`-wrapped to model the `None`
  defaults of the Python signature.
* Fallible operations (`len(None)`, `orig_kwargs[k]`, `{**None, ...}`)
  are modelled in `Except PyErr`.
* Python mutates the caller's `updated_values` dict in place via
  `updated_values.pop(key)`; the embedding threads that dict explicitly
  and returns its final state alongside the result, so mutation (or its
  absence) is observable.
-/

/-- Python runtime values, as far as the claims need them. -/
inductive Value where
  | int : Int → Value
  | str : String → Value
  deriving Repr, DecidableEq

/-- A keyword-argument mapping: insertion-ordered association list with
unique keys (a CPython `dict`). -/
abbrev KwMap := List (String × Value)

/-- One entry of `inspect.signature(func).parameters`: a name and an
optional default value (`none` models `inspect.Parameter.empty`). -/
structure Param where
  name : String
  default : Option Value
  deriving Repr, DecidableEq

/-- The updater capability: `ValueUpdater.__call__(self, original_value,
signature, orig_args, orig_kwargs)`.  The signature argument is the
parameter list; `orig_kwargs` may be `None`. -/
abbrev Updater := Value → List Param → List Value → Option KwMap → Value

/-- An entry of the `updated_values` mapping: either a plain value or a
`ValueUpdater` subclass (the code distinguishes the two with
`ValueUpdater.is_value_updater`, a tag check modelled by this union). -/
inductive UpdateValue where
  | Literal : Value → UpdateValue
  | Computed : Updater → UpdateValue

/-- The `updated_values` mapping passed to `update_parameter_value`. -/
abbrev Spec := List (String × UpdateValue)

/-- Exceptions the function can raise. -/
inductive PyErr where
  | typeError : PyErr
  | keyError : String → PyErr
  deriving Repr, DecidableEq

/-- Python truthiness of an optional sequence/mapping: `None` and the
empty container are falsy. -/
def falsy : Option (List α) → Bool
  | none => true
  | some l => l.isEmpty

/-- First value stored under key `k` in an association list
(CPython `d[k]` / `k in d` on a dict with unique keys). -/
def findVal (k : String) : List (String × α) → Option α
  | [] => none
  | (k', v) :: rest => if k' = k then some v else findVal k rest

/-- Remove the first entry stored under key `k`
(`d.pop(k)` on a dict with unique keys). -/
def popKey (k : String) : List (String × α) → List (String × α)
  | [] => []
  | (k', v) :: rest => if k' = k then rest else (k', v) :: popKey k rest

/-- The loop of lines 83–98: walk the no-default parameters in
declaration order, paired with the positional arguments by index,
resolving each against the working `updated_values` and popping matched
names.  Returns the updated positional list and the mapping's final
state. -/
def positional_loop (parameters : List Param) (args : List Value)
    (orig_kwargs : Option KwMap) :
    List (Param × Value) → Spec → List Value × Spec
  | [], spec => ([], spec)
  | (p, a) :: rest, spec =>
    match findVal p.name spec with
    | some u =>
      let value :=
        match u with
        | .Computed f => f a parameters args orig_kwargs
        | .Literal v => v
      let (tailArgs, specOut) :=
        positional_loop parameters args orig_kwargs rest (popKey p.name spec)
      (value :: tailArgs, specOut)
    | none =>
      let (tailArgs, specOut) :=
        positional_loop parameters args orig_kwargs rest spec
      (a :: tailArgs, specOut)

/-- The loop of lines 106–115: for every remaining `updated_values`
entry naming a has-default parameter, resolve it into `kwarg_updates`.
A `Computed` entry reads `orig_kwargs[k]`: `TypeError` if `orig_kwargs`
is `None`, `KeyError k` if the key is absent. -/
def kwarg_loop (parameters default_parameters : List Param)
    (args : List Value) (orig_kwargs : Option KwMap) :
    Spec → Except PyErr KwMap
  | [] => .ok []
  | (k, u) :: rest =>
    if default_parameters.any (fun p => p.name = k) then
      match u with
      | .Computed f =>
        match orig_kwargs with
        | none => .error .typeError
        | some kw =>
          match findVal k kw with
          | none => .error (.keyError k)
          | some cur =>
            match kwarg_loop parameters default_parameters args orig_kwargs rest with
            | .error e => .error e
            | .ok acc => .ok ((k, f cur parameters args orig_kwargs) :: acc)
      | .Literal v =>
        match kwarg_loop parameters default_parameters args orig_kwargs rest with
        | .error e => .error e
        | .ok acc => .ok ((k, v) :: acc)
    else kwarg_loop parameters default_parameters args orig_kwargs rest

/-- CPython `{**base, **upd}`: keys of `base` in order, values
overridden by `upd` where present, then keys of `upd` absent from
`base`, in order. -/
def dictMerge (base upd : KwMap) : KwMap :=
  base.map (fun p =>
    match findVal p.1 upd with
    | some v => (p.1, v)
    | none => p)
  ++ upd.filter (fun p => findVal p.1 base = Option.none)

/-- `update_parameter_value(func, updated_values, orig_args, orig_kwargs)`
of src/argupdate/argupdate.py, lines 29–119.  The callable is given by
its introspected parameter list.  The result carries the returned
`(args, kwargs)` pair together with the final state of the (mutated)
`updated_values` mapping. -/
def update_parameter_value (parameters : List Param) (updated_values : Spec)
    (orig_args : Option (List Value)) (orig_kwargs : Option KwMap) :
    Except PyErr ((Option (List Value) × Option KwMap) × Spec) :=
  -- lines 46–48: short-circuit when nothing was supplied
  if falsy orig_args && falsy orig_kwargs then
    .ok ((orig_args, orig_kwargs), updated_values)
  -- lines 53–56: zero-parameter callable
  else if parameters.isEmpty then
    .ok ((orig_args, orig_kwargs), updated_values)
  else
    -- line 67: len(orig_args) raises TypeError on None
    match orig_args with
    | none => .error .typeError
    | some args =>
      -- lines 59–65: partition on `param.default is inspect.Parameter.empty`
      let positional_parameters := parameters.filter (fun p => p.default.isNone)
      let default_parameters := parameters.filter (fun p => p.default.isSome)
      -- lines 67–71: arity mismatch is deferred to the eventual call
      if args.length ≠ positional_parameters.length then
        .ok ((orig_args, orig_kwargs), updated_values)
      else
        -- lines 76–98: positional resolution (guarded by `if orig_args:`)
        let st :=
          if args.isEmpty then ([], updated_values)
          else positional_loop parameters args orig_kwargs
            (positional_parameters.zip args) updated_values
        let updated_args := st.1
        let spec2 := st.2
        -- lines 106–115: default-parameter resolution
        match kwarg_loop parameters default_parameters args orig_kwargs spec2 with
        | .error e => .error e
        | .ok kwarg_updates =>
          -- line 117: {**orig_kwargs, **kwarg_updates}; TypeError on None
          match orig_kwargs with
          | none => .error .typeError
          | some kw =>
            -- line 119: `updated_args or orig_args`
            .ok ((if updated_args.isEmpty then some args else some updated_args,
                  some (dictMerge kw kwarg_updates)), spec2)

/-- The specification's running example callable `f(a, b, c=3)`: two
no-default parameters followed by one defaulted parameter. -/
def fabc : List Param := [⟨"a", none⟩, ⟨"b", none⟩, ⟨"c", some (.int 3)⟩]

/-- An example updater capability returning `original_value * 2`
(on non-integers it returns the value unchanged). -/
def doubleUpdater : Updater := fun v _ _ _ =>
  match v with
  | .int n => .int (n * 2)
  | v => v

-- ===== helper lemmas =====

theorem findVal_eq_none {k : String} {l : List (String × α)} :
    findVal k l = none ↔ ∀ e ∈ l, e.1 ≠ k := by
  induction l with
  | nil => simp [findVal]
  | cons e rest ih =>
    obtain ⟨k', v⟩ := e
    by_cases h : k' = k
    · simp [findVal, h]
    · simp [findVal, h, ih]

theorem positional_loop_no_match (P : List Param) (args : List Value) (kw : Option KwMap)
    (pairs : List (Param × Value)) (spec : Spec)
    (h : ∀ pr ∈ pairs, findVal pr.1.name spec = none) :
    positional_loop P args kw pairs spec = (pairs.map Prod.snd, spec) := by
  induction pairs with
  | nil => simp [positional_loop]
  | cons pr rest ih =>
    obtain ⟨p, a⟩ := pr
    have hp := h (p, a) (List.mem_cons_self _ _)
    simp only [positional_loop, hp]
    rw [ih (fun q hq => h q (List.mem_cons_of_mem _ hq))]
    simp

theorem dictMerge_nil (base : KwMap) : dictMerge base [] = base := by
  simp [dictMerge, findVal]

/-- C2: for every callable and every original positional list and keyword
mapping, rebinding with an empty UpdateSpec returns a pair structurally
equal to the original pair (and leaves the empty spec empty): the empty
override spec is a no-op on every path of the function. -/
theorem C2_empty_spec_identity (params : List Param) (l : List Value) (m : KwMap) :
    update_parameter_value params [] (some l) (some m) = .ok ((some l, some m), []) := by
  unfold update_parameter_value
  by_cases h1 : (falsy (some l) && falsy (some m)) = true
  · simp [h1]
  · simp only [h1, Bool.false_eq_true, if_false]
    by_cases h2 : params.isEmpty
    · simp [h2]
    · simp only [h2, Bool.false_eq_true, if_false]
      by_cases h3 : l.length ≠ (params.filter (fun p => p.default.isNone)).length
      · simp [h3]
      · push_neg at h3
        simp only [h3, ne_eq, not_true_eq_false, if_false]
        by_cases h4 : l.isEmpty
        · have : l = [] := by simpa [List.isEmpty_iff] using h4
          subst this
          simp [kwarg_loop, dictMerge_nil]
        · simp only [h4, Bool.false_eq_true, if_false]
          rw [positional_loop_no_match params l (some m)
            ((params.filter (fun p => p.default.isNone)).zip l) [] (fun pr _ => rfl)]
          simp only [kwarg_loop]
          have hsnd : ((params.filter (fun p => p.default.isNone)).zip l).map Prod.snd = l := by
            apply List.map_snd_zip
            omega
          rw [hsnd]
          have : l.isEmpty = false := by simpa using h4
          simp [this, dictMerge_nil]

theorem upv_shortcircuit (params : List Param) (spec : Spec)
    (a : Option (List Value)) (k : Option KwMap)
    (ha : falsy a = true) (hk : falsy k = true) :
    update_parameter_value params spec a k = .ok ((a, k), spec) := by
  unfold update_parameter_value
  simp [ha, hk]

theorem upv_nil_params (spec : Spec) (a : Option (List Value)) (k : Option KwMap) :
    update_parameter_value [] spec a k = .ok ((a, k), spec) := by
  unfold update_parameter_value
  by_cases h1 : (falsy a && falsy k) = true
  · simp [h1]
  · simp [h1]

theorem upv_arity (params : List Param) (spec : Spec) (l : List Value) (k : Option KwMap)
    (h : l.length ≠ (params.filter (fun p => p.default.isNone)).length) :
    update_parameter_value params spec (some l) k = .ok ((some l, k), spec) := by
  unfold update_parameter_value
  by_cases h1 : (falsy (some l) && falsy k) = true
  · simp [h1]
  · simp only [h1, Bool.false_eq_true, if_false]
    by_cases h2 : params.isEmpty
    · simp [h2]
    · simp [h2, h]

theorem upv_main (params : List Param) (spec : Spec) (l : List Value) (morig : Option KwMap)
    (hne : l ≠ [] ∨ falsy morig = false)
    (hp : params ≠ [])
    (hlen : l.length = (params.filter (fun p => p.default.isNone)).length) :
    update_parameter_value params spec (some l) morig =
      (let st :=
        if l.isEmpty then ([], spec)
        else positional_loop params l morig
          ((params.filter (fun p => p.default.isNone)).zip l) spec
      match kwarg_loop params (params.filter (fun p => p.default.isSome)) l morig st.2 with
      | .error e => .error e
      | .ok kwarg_updates =>
        match morig with
        | none => .error .typeError
        | some kw =>
          .ok ((if st.1.isEmpty then some l else some st.1,
                some (dictMerge kw kwarg_updates)), st.2)) := by
  have h1 : (falsy (some l) && falsy morig) = false := by
    rcases hne with h | h
    · simp [falsy, List.isEmpty_iff, h]
    · simp [h]
  have h2 : params.isEmpty = false := by simpa [List.isEmpty_iff] using hp
  unfold update_parameter_value
  simp only [h1, Bool.false_eq_true, if_false, h2, hlen, ne_eq, not_true_eq_false]
  cases morig <;> rfl

theorem kwarg_loop_none (P dp : List Param) (args : List Value) (s : Spec) :
    kwarg_loop P dp args none s = .error .typeError ∨
    ∃ acc, kwarg_loop P dp args none s = .ok acc := by
  induction s with
  | nil => right; exact ⟨[], rfl⟩
  | cons entry rest ih =>
    obtain ⟨k, u⟩ := entry
    by_cases hd : (dp.any (fun p => p.name = k)) = true
    · cases u with
      | Computed f =>
        left
        simp [kwarg_loop, hd]
      | Literal v =>
        rcases ih with h | ⟨acc, h⟩
        · left; simp [kwarg_loop, hd, h]
        · right; exact ⟨(k, v) :: acc, by simp [kwarg_loop, hd, h]⟩
    · simpa [kwarg_loop, hd] using ih

/-- C9: the `None` defaults of the public interface are only safe when the
call short-circuits or fails the arity check.  If `orig_args` is `None`
while `orig_kwargs` is non-empty and the callable declares at least one
no-default parameter, `len(None)` raises `TypeError`; if `orig_kwargs` is
`None` while `orig_args` is non-empty and the positional count matches
the no-default count, merging `None` into the result keyword mapping
raises `TypeError`. -/
theorem C9_none_defaults_typeerror (params : List Param) (spec : Spec) (l : List Value) (m : KwMap) :
    ((params.filter (fun p => p.default.isNone)) ≠ [] → m ≠ [] →
      update_parameter_value params spec none (some m) = .error .typeError)
    ∧ (l ≠ [] → l.length = (params.filter (fun p => p.default.isNone)).length →
      update_parameter_value params spec (some l) none = .error .typeError) := by
  constructor
  · intro hpos hm
    have hp : params ≠ [] := by
      intro h; subst h; simp at hpos
    have h2 : params.isEmpty = false := by simpa [List.isEmpty_iff] using hp
    unfold update_parameter_value
    simp [falsy, List.isEmpty_iff, hm, h2]
  · intro hl hlen
    rw [upv_main params spec l none (Or.inl hl) ?hp hlen]
    case hp =>
      intro h; subst h
      simp at hlen
      exact hl (by simpa [List.length_eq_zero] using hlen)
    rcases kwarg_loop_none params (params.filter (fun p => p.default.isSome)) l
        (if l.isEmpty then ([], spec)
         else positional_loop params l none
           ((params.filter (fun p => p.default.isNone)).zip l) spec).2 with h | ⟨acc, h⟩
    · simp only [h]
    · simp only [h]

theorem findVal_popKey (k k' : String) (l : List (String × α)) (h : k' ≠ k) :
    findVal k (popKey k' l) = findVal k l := by
  induction l with
  | nil => rfl
  | cons e rest ih =>
    obtain ⟨k0, v⟩ := e
    by_cases h0 : k0 = k'
    · subst h0
      simp [popKey, findVal, h]
    · by_cases h1 : k0 = k
      · simp [popKey, findVal, h0, h1, Ne.symm h]
      · simp [popKey, findVal, h0, h1, ih]

theorem positional_loop_get (P : List Param) (args : List Value) (kw : Option KwMap)
    (pairs : List (Param × Value)) (spec : Spec) (i : Nat) (p : Param) (a : Value)
    (hnd : (pairs.map (fun pr => pr.1.name)).Nodup)
    (hi : pairs.get? i = some (p, a))
    (hf : findVal p.name spec = some (.Computed f)) :
    (positional_loop P args kw pairs spec).1.get? i = some (f a P args kw) := by
  induction pairs generalizing spec i with
  | nil => simp at hi
  | cons pr rest ih =>
    obtain ⟨q, b⟩ := pr
    cases i with
    | zero =>
      simp only [List.get?] at hi
      injection hi with hi
      injection hi with hq hb
      subst hq; subst hb
      simp only [positional_loop, hf]
      rfl
    | succ i =>
      simp only [List.get?] at hi
      have hqp : q.name ≠ p.name := by
        simp only [List.map, List.nodup_cons] at hnd
        intro hqe
        exact hnd.1 (by
          rw [hqe]
          exact List.mem_map.2 ⟨(p, a), List.get?_mem hi, rfl⟩)
      have hnd' : (rest.map (fun pr => pr.1.name)).Nodup := by
        simp only [List.map, List.nodup_cons] at hnd
        exact hnd.2
      cases hq : findVal q.name spec with
      | some u =>
        simp only [positional_loop, hq]
        have := ih (popKey q.name spec) i hnd' hi
          (by rw [findVal_popKey _ _ _ hqp]; exact hf)
        cases hloop : positional_loop P args kw rest (popKey q.name spec) with
        | mk tailArgs specOut =>
          rw [hloop] at this
          simpa using this
      | none =>
        simp only [positional_loop, hq]
        have := ih spec i hnd' hi hf
        cases hloop : positional_loop P args kw rest spec with
        | mk tailArgs specOut =>
          rw [hloop] at this
          simpa using this

/-- C4: when the `updated_values` entry for the no-default parameter at
declaration index `i` is a `Computed` updater `f`, a successful rebind
invokes `f` with exactly the original positional value at index `i`, the
signature, and the unmodified original args and original kwargs, and
places the updater's return value at index `i` of the result args. -/
theorem C4_computed_override (params : List Param) (spec : Spec) (l : List Value)
    (morig : Option KwMap) (i : Nat) (p : Param) (a : Value) (f : Updater)
    (res : Option (List Value) × Option KwMap) (spec2 : Spec)
    (hnd : ((params.filter (fun p => p.default.isNone)).map Param.name).Nodup)
    (hi : (params.filter (fun p => p.default.isNone)).get? i = some p)
    (ha : l.get? i = some a)
    (hlen : l.length = (params.filter (fun p => p.default.isNone)).length)
    (hf : findVal p.name spec = some (.Computed f))
    (hok : update_parameter_value params spec (some l) morig = .ok (res, spec2)) :
    ∃ ra, res.1 = some ra ∧ ra.get? i = some (f a params l morig) := by
  have hl : l ≠ [] := by
    intro h; subst h; simp at ha
  have hp : params ≠ [] := by
    intro h; subst h; simp at hi
  rw [upv_main params spec l morig (Or.inl hl) hp hlen] at hok
  have hle : l.isEmpty = false := by simpa [List.isEmpty_iff] using hl
  simp only [hle, Bool.false_eq_true, if_false] at hok
  set posP := params.filter (fun p => p.default.isNone) with hposP
  have hpair : (posP.zip l).get? i = some (p, a) := by
    rw [List.get?_eq_getElem?] at hi ha ⊢
    rw [List.getElem?_zip_eq_some]
    exact ⟨hi, ha⟩
  have hndp : ((posP.zip l).map (fun pr => pr.1.name)).Nodup := by
    have hfst : (posP.zip l).map Prod.fst = posP := by
      apply List.map_fst_zip
      omega
    have : (posP.zip l).map (fun pr => pr.1.name)
        = ((posP.zip l).map Prod.fst).map Param.name := by
      rw [List.map_map]
      rfl
    rw [this, hfst]
    exact hnd
  have hget := positional_loop_get params l morig (posP.zip l) spec i p a hndp hpair hf
  cases hkl : kwarg_loop params (params.filter (fun p => p.default.isSome)) l morig
      (positional_loop params l morig (posP.zip l) spec).2 with
  | error e => rw [hkl] at hok; simp at hok
  | ok acc =>
    rw [hkl] at hok
    obtain ⟨kw, rfl⟩ : ∃ kw, morig = some kw := by
      cases morig with
      | none => simp at hok
      | some kw => exact ⟨kw, rfl⟩
    have hne : (positional_loop params l (some kw) (posP.zip l) spec).1.isEmpty = false := by
      cases hres : (positional_loop params l (some kw) (posP.zip l) spec).1 with
      | nil => rw [hres] at hget; simp at hget
      | cons x xs => simp
    simp only [hne, Bool.false_eq_true, if_false, Except.ok.injEq, Prod.mk.injEq] at hok
    obtain ⟨⟨h1, h2⟩, h3⟩ := hok
    exact ⟨(positional_loop params l (some kw) (posP.zip l) spec).1, rfl, hget⟩

theorem popKey_eq_filter (k : String) (l : List (String × α))
    (hnd : (l.map Prod.fst).Nodup) :
    popKey k l = l.filter (fun e => !(e.1 = k)) := by
  induction l with
  | nil => rfl
  | cons e rest ih =>
    obtain ⟨k0, v⟩ := e
    simp only [List.map, List.nodup_cons] at hnd
    by_cases h0 : k0 = k
    · subst h0
      have hrest : rest.filter (fun e => !(e.1 = k0)) = rest := by
        apply List.filter_eq_self.2
        intro e he
        simp only [Bool.not_eq_true', decide_eq_false_iff_not]
        intro hek
        exact hnd.1 (hek ▸ List.mem_map.2 ⟨e, he, rfl⟩)
      simp [popKey, hrest]
    · simp [popKey, h0, ih hnd.2]

theorem filter_keys_nodup (l : List (String × α)) (q : String × α → Bool)
    (hnd : (l.map Prod.fst).Nodup) :
    ((l.filter q).map Prod.fst).Nodup :=
  ((l.filter_sublist).map Prod.fst).nodup hnd

theorem positional_loop_spec_out (P : List Param) (args : List Value) (kw : Option KwMap)
    (pairs : List (Param × Value)) (spec : Spec)
    (hnd : (spec.map Prod.fst).Nodup) :
    (positional_loop P args kw pairs spec).2
      = spec.filter (fun e => !(pairs.any (fun pr => pr.1.name = e.1))) := by
  induction pairs generalizing spec with
  | nil => simp [positional_loop]
  | cons pr rest ih =>
    obtain ⟨p, a⟩ := pr
    cases hq : findVal p.name spec with
    | none =>
      simp only [positional_loop, hq]
      cases hloop : positional_loop P args kw rest spec with
      | mk tailArgs specOut =>
        have := ih spec hnd
        rw [hloop] at this
        simp only at this
        rw [this]
        apply List.filter_congr
        intro e he
        have : e.1 ≠ p.name := findVal_eq_none.1 hq e he
        simp [List.any_cons, Ne.symm this]
    | some u =>
      simp only [positional_loop, hq]
      cases hloop : positional_loop P args kw rest (popKey p.name spec) with
      | mk tailArgs specOut =>
        have hnd' : ((popKey p.name spec).map Prod.fst).Nodup := by
          rw [popKey_eq_filter _ _ hnd]
          exact filter_keys_nodup _ _ hnd
        have := ih (popKey p.name spec) hnd'
        rw [hloop] at this
        simp only at this
        rw [this, popKey_eq_filter _ _ hnd, List.filter_filter]
        apply List.filter_congr
        intro e he
        simp [List.any_cons, eq_comm, Bool.and_comm]

theorem any_zip_fst (ps : List Param) (l : List Value) (k : String)
    (h : ps.length ≤ l.length) :
    ((ps.zip l).any (fun pr => pr.1.name = k)) = ps.any (fun p => p.name = k) := by
  induction ps generalizing l with
  | nil => simp
  | cons p rest ih =>
    cases l with
    | nil => simp at h
    | cons a l2 =>
      simp only [List.zip_cons_cons, List.any_cons]
      rw [ih l2 (by simpa using h)]

/-- On a successful call whose positional count matches the no-default
parameter count (spec keys unique), the final `updated_values` state is
the input with exactly the entries named by a no-default parameter
removed. -/
theorem upv_specOut_of_ok (params : List Param) (spec : Spec) (l : List Value)
    (morig : Option KwMap) (res : Option (List Value) × Option KwMap) (specOut : Spec)
    (hnd : (spec.map Prod.fst).Nodup)
    (hlen : l.length = (params.filter (fun p => p.default.isNone)).length)
    (hok : update_parameter_value params spec (some l) morig = .ok (res, specOut)) :
    specOut = spec.filter
      (fun e => !((params.filter (fun p => p.default.isNone)).any
        (fun p => p.name = e.1))) := by
  by_cases hl : l = []
  · subst hl
    have hpos : params.filter (fun p => p.default.isNone) = [] := by
      simpa [List.length_eq_zero] using hlen.symm
    rw [hpos]
    simp only [List.any_nil, Bool.not_false, List.filter_true]
    by_cases hm : falsy morig = true
    · rw [upv_shortcircuit params spec (some []) morig (by simp [falsy]) hm] at hok
      simp only [Except.ok.injEq, Prod.mk.injEq] at hok
      exact hok.2.symm
    · by_cases hpn : params = []
      · rw [hpn, upv_nil_params] at hok
        simp only [Except.ok.injEq, Prod.mk.injEq] at hok
        exact hok.2.symm
      · rw [upv_main params spec [] morig
          (Or.inr (by simpa using hm)) hpn hlen] at hok
        simp only [List.isEmpty_nil, if_true] at hok
        cases hkl : kwarg_loop params (params.filter (fun p => p.default.isSome)) [] morig
            (([], spec) : List Value × Spec).2 with
        | error e => rw [hkl] at hok; simp at hok
        | ok acc =>
          rw [hkl] at hok
          cases morig with
          | none => simp at hok
          | some kw =>
            simp only [Except.ok.injEq, Prod.mk.injEq] at hok
            exact hok.2.symm
  · have hp : params ≠ [] := by
      intro h; subst h
      simp only [List.filter_nil, List.length_nil] at hlen
      exact hl (by simpa [List.length_eq_zero] using hlen)
    rw [upv_main params spec l morig (Or.inl hl) hp hlen] at hok
    have hle : l.isEmpty = false := by simpa [List.isEmpty_iff] using hl
    simp only [hle, Bool.false_eq_true, if_false] at hok
    set posP := params.filter (fun p => p.default.isNone) with hposP
    have hout := positional_loop_spec_out params l morig (posP.zip l) spec hnd
    have hfst : (posP.zip l).map Prod.fst = posP := by
      apply List.map_fst_zip
      omega
    have hany : ∀ k : String, ((posP.zip l).any (fun pr => pr.1.name = k))
        = (posP.any (fun p => p.name = k)) := fun k =>
      any_zip_fst posP l k (by omega)
    have hout' : (positional_loop params l morig (posP.zip l) spec).2
        = spec.filter (fun e => !(posP.any (fun p => p.name = e.1))) := by
      rw [hout]
      apply List.filter_congr
      intro e _
      rw [hany]
    cases hkl : kwarg_loop params (params.filter (fun p => p.default.isSome)) l morig
        (positional_loop params l morig (posP.zip l) spec).2 with
    | error e => rw [hkl] at hok; simp at hok
    | ok acc =>
      rw [hkl] at hok
      cases morig with
      | none => simp at hok
      | some kw =>
        simp only [Except.ok.injEq, Prod.mk.injEq] at hok
        rw [← hok.2, hout']

theorem findVal_filterq (q : String → Bool) (k : String) (l : List (String × α))
    (hq : q k = true) :
    findVal k (l.filter (fun e => q e.1)) = findVal k l := by
  induction l with
  | nil => rfl
  | cons e rest ih =>
    obtain ⟨k0, v⟩ := e
    by_cases h0 : k0 = k
    · subst h0
      simp [List.filter_cons, hq, findVal]
    · by_cases hqk : q k0 = true
      · simp [List.filter_cons, hqk, findVal, h0, ih]
      · simp only [List.filter_cons] at *
        simp [hqk, findVal, h0, ih]

theorem popKey_filterq (q : String → Bool) (k : String) (l : List (String × α))
    (hq : q k = true) :
    popKey k (l.filter (fun e => q e.1)) = (popKey k l).filter (fun e => q e.1) := by
  induction l with
  | nil => rfl
  | cons e rest ih =>
    obtain ⟨k0, v⟩ := e
    by_cases h0 : k0 = k
    · subst h0
      simp [List.filter_cons, hq, popKey]
    · by_cases hqk : q k0 = true
      · simp [List.filter_cons, hqk, popKey, h0, ih]
      · simp [List.filter_cons, hqk, popKey, h0, ih]

theorem positional_loop_filterq (P : List Param) (args : List Value) (kw : Option KwMap)
    (q : String → Bool) (pairs : List (Param × Value)) (spec : Spec)
    (hq : ∀ pr ∈ pairs, q pr.1.name = true) :
    positional_loop P args kw pairs (spec.filter (fun e => q e.1))
      = ((positional_loop P args kw pairs spec).1,
         (positional_loop P args kw pairs spec).2.filter (fun e => q e.1)) := by
  induction pairs generalizing spec with
  | nil => simp [positional_loop]
  | cons pr rest ih =>
    obtain ⟨p, a⟩ := pr
    have hqp : q p.name = true := hq (p, a) (List.mem_cons_self _ _)
    have hrest : ∀ pr ∈ rest, q pr.1.name = true :=
      fun x hx => hq x (List.mem_cons_of_mem _ hx)
    cases hfv : findVal p.name spec with
    | none =>
      simp only [positional_loop, findVal_filterq q p.name spec hqp, hfv]
      rw [ih spec hrest]
    | some u =>
      simp only [positional_loop, findVal_filterq q p.name spec hqp, hfv]
      rw [popKey_filterq q p.name spec hqp, ih (popKey p.name spec) hrest]

theorem kwarg_loop_filterq (P dp : List Param) (args : List Value) (kw : Option KwMap)
    (q : String → Bool) (s : Spec)
    (hdp : ∀ k : String, q k = false → dp.any (fun p => p.name = k) = false) :
    kwarg_loop P dp args kw (s.filter (fun e => q e.1)) = kwarg_loop P dp args kw s := by
  induction s with
  | nil => rfl
  | cons e rest ih =>
    obtain ⟨k, u⟩ := e
    by_cases hqk : q k = true
    · simp only [List.filter_cons, hqk, if_true]
      simp only [kwarg_loop]
      rw [ih]
    · have hfalse : q k = false := by simpa using hqk
      have hda := hdp k hfalse
      simp only [List.filter_cons, hfalse, Bool.false_eq_true, if_false]
      simp only [kwarg_loop, hda, Bool.false_eq_true, if_false]
      exact ih

theorem upv_filter_declared (params : List Param) (spec : Spec) (l : List Value) (m : KwMap) :
    (update_parameter_value params
        (spec.filter (fun e => params.any (fun p => p.name = e.1)))
        (some l) (some m)).map Prod.fst
      = (update_parameter_value params spec (some l) (some m)).map Prod.fst := by
  by_cases hsc : (falsy (some l) && falsy (some m)) = true
  · have h1 : falsy (some l) = true := by
      cases hb : falsy (some l) <;> simp [hb] at hsc ⊢
    have h2 : falsy (some m) = true := by
      cases hb : falsy (some m) <;> simp [hb] at hsc ⊢
    rw [upv_shortcircuit _ _ _ _ h1 h2, upv_shortcircuit _ _ _ _ h1 h2]
    simp [Except.map]
  · by_cases hpn : params = []
    · rw [hpn, upv_nil_params, upv_nil_params]
      simp [Except.map]
    · by_cases hlen : l.length = (params.filter (fun p => p.default.isNone)).length
      · have hne : l ≠ [] ∨ falsy (some m) = false := by
          by_cases hl : l = []
          · right
            subst hl
            simpa [falsy] using hsc
          · exact Or.inl hl
        rw [upv_main _ _ _ _ hne hpn hlen, upv_main _ _ _ _ hne hpn hlen]
        set q : String → Bool := fun k => params.any (fun p => p.name = k) with hqdef
        have hdp : ∀ k : String, q k = false →
            (params.filter (fun p => p.default.isSome)).any (fun p => p.name = k) = false := by
          intro k hk
          cases hda : (params.filter (fun p => p.default.isSome)).any (fun p => p.name = k) with
          | false => rfl
          | true =>
            obtain ⟨p, hp, hpk⟩ := List.any_eq_true.1 hda
            have hq2 : q k = true :=
              List.any_eq_true.2 ⟨p, (List.mem_filter.1 hp).1, hpk⟩
            rw [hq2] at hk
            simp at hk
        have hqz : ∀ pr ∈ (params.filter (fun p => p.default.isNone)).zip l,
            q pr.1.name = true := by
          intro pr hpr
          obtain ⟨p, a⟩ := pr
          have hmem : p ∈ params.filter (fun p => p.default.isNone) :=
            (List.of_mem_zip hpr).1
          exact List.any_eq_true.2 ⟨p, (List.mem_filter.1 hmem).1, by simp⟩
        by_cases hle : l.isEmpty
        · simp only [hle, if_true]
          rw [kwarg_loop_filterq _ _ _ _ q spec hdp]
          cases hkl : kwarg_loop params (params.filter fun p => p.default.isSome) l
              (some m) spec with
          | error e => simp [hkl, Except.map]
          | ok acc => simp [hkl, Except.map]
        · simp only [hle, Bool.false_eq_true, if_false]
          rw [positional_loop_filterq params l (some m) q _ spec hqz]
          rw [kwarg_loop_filterq params _ l (some m) q _ hdp]
          cases hkl : kwarg_loop params (params.filter fun p => p.default.isSome) l (some m)
              (positional_loop params l (some m)
                ((params.filter (fun p => p.default.isNone)).zip l) spec).2 with
          | error e => simp [hkl, Except.map]
          | ok acc => simp [hkl, Except.map]
      · rw [upv_arity _ _ _ _ hlen, upv_arity _ _ _ _ hlen]
        simp [Except.map]

theorem dictMerge_single_absent (m : KwMap) (k : String) (v : Value)
    (h : findVal k m = none) :
    dictMerge m [(k, v)] = m ++ [(k, v)] := by
  unfold dictMerge
  have h1 : ∀ e ∈ m, e.1 ≠ k := fun e he => findVal_eq_none.1 h e he
  have hmap : m.map (fun p => match findVal p.1 [(k, v)] with
      | some w => (p.1, w)
      | none => p) = m := by
    conv_rhs => rw [← List.map_id m]
    apply List.map_congr_left
    intro e he
    have hk : findVal e.1 [(k, v)] = none := by
      have : k ≠ e.1 := fun h2 => (h1 e he) h2.symm
      simp [findVal, this]
    rw [hk]
    rfl
  rw [hmap]
  simp [List.filter_cons, h]

/-- C10 (amended): on a call that reaches keyword resolution (inputs not
both empty, positional count equal to the no-default count), an
`updated_values` entry mapping a has-default parameter name `k` (not also
a no-default name) to a `Computed` updater raises an uncaught
`KeyError k` when the name is absent from the original kwargs, instead of
passing the declared default or a not-present marker; a `Literal` entry
for the same absent name does not raise and is appended to the result
kwargs. -/
theorem C10_absent_default_keyerror (params : List Param) (l : List Value) (m : KwMap) (k : String)
    (f : Updater) (v : Value)
    (hdp : (params.filter (fun p => p.default.isSome)).any (fun p => p.name = k) = true)
    (hpos : ∀ p ∈ params.filter (fun p => p.default.isNone), p.name ≠ k)
    (habs : findVal k m = none)
    (hlen : l.length = (params.filter (fun p => p.default.isNone)).length)
    (hne : ¬(l = [] ∧ m = [])) :
    update_parameter_value params [(k, .Computed f)] (some l) (some m)
        = .error (.keyError k)
    ∧ update_parameter_value params [(k, .Literal v)] (some l) (some m)
        = .ok ((some l, some (m ++ [(k, v)])), [(k, .Literal v)]) := by
  have hp : params ≠ [] := by
    intro h
    subst h
    simp at hdp
  have hne' : l ≠ [] ∨ falsy (some m) = false := by
    by_cases hl : l = []
    · right
      have : m ≠ [] := fun hm => hne ⟨hl, hm⟩
      simpa [falsy, List.isEmpty_iff] using this
    · exact Or.inl hl
  have hst : ∀ spec : Spec, (∀ pr ∈ ((params.filter (fun p => p.default.isNone)).zip l),
      findVal pr.1.name spec = none) →
      (if l.isEmpty then ([], spec)
       else positional_loop params l (some m)
         ((params.filter (fun p => p.default.isNone)).zip l) spec)
      = (if l.isEmpty then [] else l, spec) := by
    intro spec hnm
    by_cases hle : l.isEmpty
    · simp [hle]
    · simp only [hle, Bool.false_eq_true, if_false]
      rw [positional_loop_no_match _ _ _ _ _ hnm]
      have : ((params.filter (fun p => p.default.isNone)).zip l).map Prod.snd = l := by
        apply List.map_snd_zip
        omega
      rw [this]
  have hargs : ∀ u : UpdateValue, ∀ pr ∈ ((params.filter (fun p => p.default.isNone)).zip l),
      findVal pr.1.name [(k, u)] = none := by
    intro u pr hpr
    obtain ⟨p, a⟩ := pr
    have hmem : p ∈ params.filter (fun p => p.default.isNone) := (List.of_mem_zip hpr).1
    have : k ≠ p.name := fun h2 => (hpos p hmem) h2.symm
    simp [findVal, this]
  constructor
  · rw [upv_main params [(k, .Computed f)] l (some m) hne' hp hlen]
    rw [hst [(k, .Computed f)] (hargs (.Computed f))]
    simp only [kwarg_loop, hdp, if_true, habs]
  · rw [upv_main params [(k, .Literal v)] l (some m) hne' hp hlen]
    rw [hst [(k, .Literal v)] (hargs (.Literal v))]
    simp only [kwarg_loop, hdp, if_true]
    rw [dictMerge_single_absent m k v habs]
    by_cases hle : l.isEmpty
    · have : l = [] := by simpa [List.isEmpty_iff] using hle
      subst this
      simp [hle]
    · simp [hle]

/-- Every successful call returns as its keyword component either the
caller's mapping itself (short-circuit, zero-parameter and arity-mismatch
paths) or a fresh mapping merged over the unchanged original: nothing is
ever consumed from the original keyword mapping. -/
theorem upv_kwargs_shape (params : List Param) (spec : Spec) (l : List Value)
    (morig : Option KwMap) (res : Option (List Value) × Option KwMap) (specOut : Spec)
    (hok : update_parameter_value params spec (some l) morig = .ok (res, specOut)) :
    res.2 = morig ∨ ∃ kw ku, morig = some kw ∧ res.2 = some (dictMerge kw ku) := by
  by_cases hsc : (falsy (some l) && falsy morig) = true
  · have h1 : falsy (some l) = true := by
      cases hb : falsy (some l) <;> simp [hb] at hsc ⊢
    have h2 : falsy morig = true := by
      cases hb : falsy morig <;> simp [hb] at hsc ⊢
    rw [upv_shortcircuit _ _ _ _ h1 h2] at hok
    simp only [Except.ok.injEq, Prod.mk.injEq] at hok
    left
    rw [← hok.1]
  · by_cases hpn : params = []
    · rw [hpn, upv_nil_params] at hok
      simp only [Except.ok.injEq, Prod.mk.injEq] at hok
      left
      rw [← hok.1]
    · by_cases hlen : l.length = (params.filter (fun p => p.default.isNone)).length
      · have hne : l ≠ [] ∨ falsy morig = false := by
          by_cases hl : l = []
          · right
            subst hl
            simpa [falsy] using hsc
          · exact Or.inl hl
        rw [upv_main params spec l morig hne hpn hlen] at hok
        by_cases hle : l.isEmpty
        · simp only [hle, if_true, List.isEmpty_nil] at hok
          cases hkl : kwarg_loop params (params.filter (fun p => p.default.isSome))
              l morig spec with
          | error e => rw [hkl] at hok; simp at hok
          | ok ku =>
            rw [hkl] at hok
            obtain ⟨kw, rfl⟩ : ∃ kw, morig = some kw := by
              cases morig with
              | none => simp at hok
              | some kw => exact ⟨kw, rfl⟩
            simp only [Except.ok.injEq, Prod.mk.injEq] at hok
            right
            exact ⟨kw, ku, rfl, by rw [← hok.1]⟩
        · simp only [hle, Bool.false_eq_true, if_false] at hok
          cases hkl : kwarg_loop params (params.filter (fun p => p.default.isSome)) l morig
              (positional_loop params l morig
                ((params.filter (fun p => p.default.isNone)).zip l) spec).2 with
          | error e => rw [hkl] at hok; simp at hok
          | ok ku =>
            rw [hkl] at hok
            obtain ⟨kw, rfl⟩ : ∃ kw, morig = some kw := by
              cases morig with
              | none => simp at hok
              | some kw => exact ⟨kw, rfl⟩
            simp only [Except.ok.injEq, Prod.mk.injEq] at hok
            right
            exact ⟨kw, ku, rfl, by rw [← hok.1]⟩
      · rw [upv_arity _ _ _ _ hlen] at hok
        simp only [Except.ok.injEq, Prod.mk.injEq] at hok
        left
        rw [← hok.1]

/-- C1 (amended): the keyword-mapping half of the non-mutation claim
stands — every successful call returns either the caller's keyword
mapping itself (short-circuit, zero-parameter and arity-mismatch paths)
or a fresh mapping merged over the unchanged original, which is never
consumed from — but the UpdateSpec half fails: rebind pops matched
no-default parameter names from the caller's own UpdateSpec rather than
a working copy.  On a successful call whose positional count equals the
no-default parameter count (spec keys unique) the UpdateSpec ends equal
to its pre-call snapshot with exactly the entries named by a no-default
parameter removed; on the short-circuit and arity-mismatch paths it is
returned unchanged. -/
theorem C1_updated_values_mutation (params : List Param) (spec : Spec) (l : List Value)
    (morig : Option KwMap) (res : Option (List Value) × Option KwMap) (specOut : Spec) :
    ((spec.map Prod.fst).Nodup →
      l.length = (params.filter (fun p => p.default.isNone)).length →
      update_parameter_value params spec (some l) morig = .ok (res, specOut) →
      specOut = spec.filter
        (fun e => !((params.filter (fun p => p.default.isNone)).any
          (fun p => p.name = e.1))))
    ∧ (l.length ≠ (params.filter (fun p => p.default.isNone)).length →
        update_parameter_value params spec (some l) morig = .ok ((some l, morig), spec))
    ∧ (falsy (some l) = true → falsy morig = true →
        update_parameter_value params spec (some l) morig = .ok ((some l, morig), spec))
    ∧ (update_parameter_value params spec (some l) morig = .ok (res, specOut) →
        res.2 = morig ∨ ∃ kw ku, morig = some kw ∧ res.2 = some (dictMerge kw ku)) :=
  ⟨fun hnd hlen hok => upv_specOut_of_ok params spec l morig res specOut hnd hlen hok,
   fun hlen => upv_arity params spec l morig hlen,
   fun ha hk => upv_shortcircuit params spec (some l) morig ha hk,
   fun hok => upv_kwargs_shape params spec l morig res specOut hok⟩

/-- C1 (counterexample): rebind mutates the caller's UpdateSpec.  For a
callable `f(a)` and an override mapping containing `a`, the call succeeds
but the mapping's post-call state is empty, not structurally equal to its
pre-call snapshot. -/
theorem C1_counterexample :
    update_parameter_value [⟨"a", none⟩] [("a", .Literal (.int 1))]
        (some [.int 5]) (some [])
      = .ok ((some [.int 1], some []), [])
    ∧ ([] : Spec) ≠ [("a", UpdateValue.Literal (.int 1))] :=
  ⟨rfl, by simp⟩

/-- C1 (witness): the amended law at concrete inputs: for `f(a, c=3)`
with overrides for `a` and the unknown name `zzz`, the spec ends with
the `a` entry removed; for `f(a, b)` with override for `a` but only one
positional argument, the arity-mismatch path returns the spec (and
kwargs) unchanged even though the no-default name `a` occurs in it. -/
theorem C1_witness :
    (([("zzz", UpdateValue.Literal (.int 2))] : Spec)
      = ([("a", UpdateValue.Literal (.int 1)), ("zzz", UpdateValue.Literal (.int 2))] : Spec).filter
          (fun e => !((([⟨"a", none⟩, ⟨"c", some (.int 3)⟩] : List Param).filter
            (fun p => p.default.isNone)).any (fun p => p.name = e.1))))
    ∧ update_parameter_value [⟨"a", none⟩, ⟨"b", none⟩] [("a", .Literal (.int 1))]
        (some [.int 5]) (some [])
      = .ok ((some [.int 5], some []), [("a", .Literal (.int 1))]) :=
  ⟨(C1_updated_values_mutation [⟨"a", none⟩, ⟨"c", some (.int 3)⟩]
      [("a", .Literal (.int 1)), ("zzz", .Literal (.int 2))] [.int 5] (some [])
      (some [.int 1], some []) [("zzz", .Literal (.int 2))]).1
      (by simp) rfl rfl,
   (C1_updated_values_mutation [⟨"a", none⟩, ⟨"b", none⟩] [("a", .Literal (.int 1))]
      [.int 5] (some []) (some [.int 5], some []) [("a", .Literal (.int 1))]).2.1
      (by decide)⟩

/-- C3: whenever the supplied positional count differs from the number of
declared no-default parameters, rebind raises no exception and performs
no rebinding: the original args, kwargs and UpdateSpec come back
unchanged, deferring the arity error to the eventual call of the target
callable. -/
theorem C3_arity_mismatch_passthrough (params : List Param) (spec : Spec)
    (l : List Value) (k : Option KwMap)
    (h : l.length ≠ (params.filter (fun p => p.default.isNone)).length) :
    update_parameter_value params spec (some l) k = .ok ((some l, k), spec) :=
  upv_arity params spec l k h

/-- C3 (witness): `rebind(f, spec with a, [1], ())` on `f(a, b, c=3)`,
which requires two no-default parameters, returns the inputs unchanged. -/
theorem C3_witness :
    [Value.int 1].length ≠ (fabc.filter (fun p => p.default.isNone)).length
    ∧ update_parameter_value fabc [("a", .Literal (.int 1))] (some [.int 1]) (some [])
        = .ok ((some [.int 1], some []), [("a", .Literal (.int 1))]) :=
  ⟨by decide,
   C3_arity_mismatch_passthrough fabc [("a", .Literal (.int 1))] [.int 1] (some [])
     (by decide)⟩

/-- C4 (witness): for `f(a, b, c=3)`, overriding `b` (bound to `5`) with a
Computed updater returning `original_value * 2` puts `10` at index 1 of
the result args, the updater having received the original value, the
signature and the unmodified original args and kwargs. -/
theorem C4_witness :
    ∃ ra, ((some [Value.int 1, Value.int 10], some ([] : KwMap)) :
        Option (List Value) × Option KwMap).1 = some ra
      ∧ ra.get? 1 = some (Value.int 10) :=
  C4_computed_override fabc [("b", .Computed doubleUpdater)] [.int 1, .int 5]
    (some []) 1 ⟨"b", none⟩ (.int 5) doubleUpdater
    (some [.int 1, .int 10], some []) []
    (by decide) rfl rfl rfl rfl rfl

/-- C5: for `f(a, b, c=3)`, a Literal override of the has-default
parameter `c` is merged over a copy of the original keyword mapping:
with empty original kwargs the result is `([1, 2]` and `c` mapped to
`42)`; an unmatched original keyword entry passes through unchanged ahead
of the override key; an original entry for `c` is overridden by the
resolved value. -/
theorem C5_default_override :
    update_parameter_value fabc [("c", .Literal (.int 42))]
        (some [.int 1, .int 2]) (some [])
      = .ok ((some [.int 1, .int 2], some [("c", .int 42)]), [("c", .Literal (.int 42))])
    ∧ update_parameter_value fabc [("c", .Literal (.int 42))]
        (some [.int 1, .int 2]) (some [("x", .int 7)])
      = .ok ((some [.int 1, .int 2], some [("x", .int 7), ("c", .int 42)]),
             [("c", .Literal (.int 42))])
    ∧ update_parameter_value fabc [("c", .Literal (.int 42))]
        (some [.int 1, .int 2]) (some [("c", .int 5)])
      = .ok ((some [.int 1, .int 2], some [("c", .int 42)]), [("c", .Literal (.int 42))]) :=
  ⟨rfl, rfl, rfl⟩

/-- C6: for `f(a, b, c=3)`, a Literal override of the no-default
parameter `b` replaces the positional value at declaration index 1
verbatim, leaving every other position and the keyword mapping
unchanged; in particular overriding with `99` yields `([1, 99]` and empty
kwargs`)`. -/
theorem C6_literal_override :
    (∀ w : Value, update_parameter_value fabc [("b", .Literal w)]
        (some [.int 1, .int 2]) (some [])
      = .ok ((some [.int 1, w], some []), []))
    ∧ update_parameter_value fabc [("b", .Literal (.int 99))]
        (some [.int 1, .int 2]) (some [])
      = .ok ((some [.int 1, .int 99], some []), []) :=
  ⟨fun _ => rfl, rfl⟩

/-- C7: UpdateSpec entries whose name matches no declared parameter are
silently dropped and raise no error: restricting the spec to declared
parameter names never changes the returned args/kwargs (or the raised
exception), and concretely `rebind(f, spec with zzz, [1, 2], ())` on
`f(a, b, c=3)` returns the inputs unchanged. -/
theorem C7_unknown_key_tolerance :
    (∀ (params : List Param) (spec : Spec) (l : List Value) (m : KwMap),
      (update_parameter_value params
          (spec.filter (fun e => params.any (fun p => p.name = e.1)))
          (some l) (some m)).map Prod.fst
        = (update_parameter_value params spec (some l) (some m)).map Prod.fst)
    ∧ update_parameter_value fabc [("zzz", .Literal (.int 1))]
        (some [.int 1, .int 2]) (some [])
      = .ok ((some [.int 1, .int 2], some []), [("zzz", .Literal (.int 1))]) :=
  ⟨upv_filter_declared, rfl⟩

/-- C8: whenever both original args and original kwargs are empty or
absent, rebind returns them unchanged for every callable and every
UpdateSpec (empty or not) — no signature inspection can influence the
result, and a Literal-only UpdateSpec on a zero-arg call is silently
ignored. -/
theorem C8_shortcircuit (params : List Param) (spec : Spec)
    (a : Option (List Value)) (k : Option KwMap)
    (ha : falsy a = true) (hk : falsy k = true) :
    update_parameter_value params spec a k = .ok ((a, k), spec) :=
  upv_shortcircuit params spec a k ha hk

/-- C8 (witness): `f(a, b, c=3)` with a non-empty Literal spec, empty
args and absent kwargs comes back unchanged. -/
theorem C8_witness :
    falsy (some ([] : List Value)) = true
    ∧ falsy (none : Option KwMap) = true
    ∧ update_parameter_value fabc [("a", .Literal (.int 1))] (some []) none
        = .ok ((some [], none), [("a", .Literal (.int 1))]) :=
  ⟨rfl, rfl, C8_shortcircuit fabc [("a", .Literal (.int 1))] (some []) none rfl rfl⟩

/-- C9 (witness): both TypeError scenarios at a concrete input on
`f(a, b, c=3)`. -/
theorem C9_witness :
    update_parameter_value fabc [] none (some [("x", .int 7)]) = .error .typeError
    ∧ update_parameter_value fabc [] (some [.int 1, .int 2]) none = .error .typeError :=
  ⟨(C9_none_defaults_typeerror fabc [] [.int 1, .int 2] [("x", .int 7)]).1
      (by decide) (by decide),
   (C9_none_defaults_typeerror fabc [] [.int 1, .int 2] [("x", .int 7)]).2
      (by decide) (by decide)⟩

/-- C10 (counterexample): the claim's universal form fails on the
short-circuit path: for `f(c=3)` with a Computed override for the absent
name `c` and empty args/kwargs, rebind returns the inputs unchanged
instead of raising KeyError. -/
theorem C10_counterexample :
    update_parameter_value [⟨"c", some (.int 3)⟩] [("c", .Computed doubleUpdater)]
        (some []) (some [])
      = .ok ((some [], some []), [("c", .Computed doubleUpdater)])
    ∧ (Except.ok ((some ([] : List Value), some ([] : KwMap)),
          [("c", UpdateValue.Computed doubleUpdater)]) :
        Except PyErr ((Option (List Value) × Option KwMap) × Spec))
      ≠ .error (.keyError "c") :=
  ⟨rfl, fun h => Except.noConfusion h⟩

/-- C10 (witness): on `f(a, b, c=3)` with args `[1, 2]` and empty kwargs,
a Computed override of the absent `c` raises KeyError, while a Literal
override of the same absent name succeeds and is appended to the result
kwargs. -/
theorem C10_witness :
    update_parameter_value fabc [("c", .Computed doubleUpdater)]
        (some [.int 1, .int 2]) (some []) = .error (.keyError "c")
    ∧ update_parameter_value fabc [("c", .Literal (.int 7))]
        (some [.int 1, .int 2]) (some [])
      = .ok ((some [.int 1, .int 2], some [("c", Value.int 7)]),
             [("c", .Literal (.int 7))]) :=
  C10_absent_default_keyerror fabc [.int 1, .int 2] [] "c" doubleUpdater (.int 7)
    (by decide) (by decide) rfl rfl (by decide)
